import Mathlib

/-!
Verification of GreenDiskVisualizer against its specification.

This file shallowly embeds the pure computational cores of the program:

* the N-level hierarchy aggregator `_add_size_to_hierarchy`
  (`scanner.py` / `mft_scanner.py`, identical code in both backends),
* the Stage-B breadth-first directory tree reconstruction
  `_build_dir_paths_compact` (`mft_scanner.py`),
* the generic `os.scandir` walker's progress-event emission
  (`_scan_via_scandir` in `scanner.py`),
* the backend dispatcher `scan_path` (`scanner.py`),
* the squarified treemap layout (`treemap.py`),
* the ETA estimator of `_update_progress_ui` (`main.py`).

Python dicts are modelled as insertion-ordered association lists,
Python ints as `Int`/`Nat`, and Python floats as exact rationals `ℚ`.
-/

/-! ## Path splitting

Models `rel_path.replace("/", "\\").split("\\")`: the character list is cut
at every `/` or `\` separator, keeping empty pieces, and `""` splits to
`[""]` (Python `str.split` semantics with an explicit separator). -/

def sepChar (c : Char) : Bool := c = '/' || c = '\\'

def splitCore : List Char → List (List Char)
  | [] => [[]]
  | c :: rest =>
    let r := splitCore rest
    if sepChar c then [] :: r
    else (c :: r.headD []) :: r.tail

def splitPath (s : String) : List String := (splitCore s.data).map (fun l => String.mk l)

/-! ## The N-level hierarchy

Each node is `{"total": int, "children": {name: node, ...}}`; a children dict
is an insertion-ordered association list (`setdefault` appends new keys at
the end, updating a present key keeps its position). -/

inductive HNode where
  | mk (total : Int) (children : List (String × HNode))

def HNode.total : HNode → Int
  | .mk t _ => t

def HNode.children : HNode → List (String × HNode)
  | .mk _ c => c

abbrev Hierarchy := List (String × HNode)

/-- Dict read: first (unique) binding of a key. -/
def lookupA : Hierarchy → String → Option HNode
  | [], _ => none
  | (k, v) :: rest, key => if k = key then some v else lookupA rest key

/-- Dict write: update a present key in place, append a new key at the end. -/
def setA : Hierarchy → String → HNode → Hierarchy
  | [], key, v => [(key, v)]
  | (k, w) :: rest, key, v =>
    if k = key then (k, v) :: rest else (k, w) :: setA rest key v

/-- The directory loop of `_add_size_to_hierarchy`
(`for part in parts[:-1]: child = node.setdefault(part, {"total": 0,
"children": {}}); child["total"] += size; node = child["children"]`),
expressed as structural recursion over the component list: each traversed
component is created if absent, its `total` is incremented by `size`, and
the walk continues inside its `children`. -/
def addDirs : Hierarchy → List String → Int → Hierarchy
  | h, [], _ => h
  | h, d :: rest, size =>
    let child := (lookupA h d).getD (.mk 0 [])
    setA h d (.mk (child.total + size) (addDirs child.children rest size))

/-- `_add_size_to_hierarchy(hierarchy, rel_path, size)` of `scanner.py`
lines 106-125 (and the identical copy in `mft_scanner.py` lines 250-263):
single-component paths take the `len(parts) <= 1` branch, which inserts the
component itself; otherwise every component except the last is walked. -/
def add_size_to_hierarchy (hierarchy : Hierarchy) (rel_path : String) (size : Int) :
    Hierarchy :=
  let parts := splitPath rel_path
  if parts.length ≤ 1 then
    let key := parts.headD ""
    let entry := (lookupA hierarchy key).getD (.mk 0 [])
    setA hierarchy key (.mk (entry.total + size) entry.children)
  else
    addDirs hierarchy parts.dropLast size

/-- The components of a path that actually get inserted as nodes: the whole
path when it has a single component, all but the last component otherwise. -/
def keepParts (parts : List String) : List String :=
  if parts.length ≤ 1 then parts else parts.dropLast

/-- Node lookup at a (nonempty) component path in the hierarchy. -/
def lookupPath : Hierarchy → List String → Option HNode
  | _, [] => none
  | h, k :: rest =>
    match lookupA h k, rest with
    | none, _ => none
    | some n, [] => some n
    | some n, r :: rs => lookupPath n.children (r :: rs)

/-- A component path is present as a node. -/
def memPath (h : Hierarchy) (q : List String) : Bool := (lookupPath h q).isSome

/-- The `total` stored at a component path, if the node exists. -/
def lookupTot (h : Hierarchy) (q : List String) : Option Int :=
  (lookupPath h q).map HNode.total

/-- `total` at a path, defaulting to `0` for an absent node. -/
def totAt (h : Hierarchy) (q : List String) : Int := (lookupTot h q).getD 0

/-- Children at a path, defaulting to the empty dict for an absent node. -/
def chAt (h : Hierarchy) (q : List String) : Hierarchy :=
  ((lookupPath h q).map HNode.children).getD []

/-- Boolean list-prefix test on component paths. -/
def isPre : List String → List String → Bool
  | [], _ => true
  | _ :: _, [] => false
  | a :: as, b :: bs => a = b && isPre as bs

/-- Sum of the `total` fields of a children dict. -/
def sumTot (h : Hierarchy) : Int := (h.map (fun p => p.2.total)).sum

/-- Sum of the children's `total` fields of a node. -/
def childrenTotal (n : HNode) : Int := sumTot n.children

/-- One `add(rel_path, size)` operation, as a fold step. -/
def addOp (h : Hierarchy) (op : String × Int) : Hierarchy :=
  add_size_to_hierarchy h op.1 op.2

/-- Applying a batch of `add(rel_path, size)` operations in sequence,
starting from the empty hierarchy. -/
def applyOps (ops : List (String × Int)) : Hierarchy :=
  ops.foldl addOp []

/-- Sum of the sizes of the operations whose inserted component path
(`keepParts` of the split path) is exactly `q` — the files "directly under"
node `q` as the code attributes them. -/
def directSum (ops : List (String × Int)) (q : List String) : Int :=
  ((ops.filter (fun op => keepParts (splitPath op.1) = q)).map (fun op => op.2)).sum

/-- Modelled from the claim's words: the spec attributes a file to the node
of its *directory* prefix, i.e. always `(splitPath rel_path).dropLast`,
with no special case for single-component paths. Compared against
`directSum`, which follows the code. -/
def claimDirectSum (ops : List (String × Int)) (q : List String) : Int :=
  ((ops.filter (fun op => (splitPath op.1).dropLast = q)).map (fun op => op.2)).sum

/-! ## Stage B tree reconstruction (`_build_dir_paths_compact`, mft_scanner.py)

The flat record table of Stage A is a map from a directory reference number
to its `(parent reference, name)` pair, modelled as a list of
`(ref, parent, name)` triples with unique `ref` keys. -/

def ntfsRootRef : Nat := 5

abbrev MftEntry := Nat × Nat × String

/-- The parent→children adjacency list: `children_of[parent_ref]` collects
`(ref, name)` of every record whose parent is `parent_ref`, in table order. -/
def childrenOf (entries : List MftEntry) (p : Nat) : List (Nat × String) :=
  entries.filterMap (fun e => if e.2.1 = p then some (e.1, e.2.2) else none)

/-- `name.startswith("$")`: the first character is the volume-metadata
marker `$`. -/
def startsDollar (s : String) : Bool :=
  match s.data with
  | [] => false
  | c :: _ => c = '$'

/-- `compact[ref] = (parent_ref, name)` dict write. -/
def setCompact : List MftEntry → Nat → Nat × String → List MftEntry
  | [], key, v => [(key, v.1, v.2)]
  | (k, w) :: rest, key, v =>
    if k = key then (k, v.1, v.2) :: rest else (k, w) :: setCompact rest key v

/-- The queue-processing loop of `_build_dir_paths_compact`
(mft_scanner.py lines 211-218): pop the queue head, record non-root
entries into `compact`, and append every child whose name does not start
with `"$"`. The loop has no visited set; `fuel` bounds the number of
processed queue entries, `none` meaning the bound was hit with the queue
still nonempty. -/
def bfsAux (entries : List MftEntry) :
    Nat → List (Nat × Nat × String) → List MftEntry → Option (List MftEntry)
  | _, [], compact => some compact
  | 0, _ :: _, _ => none
  | fuel + 1, (ref, parentRef, name) :: rest, compact =>
    let compact' :=
      if ref = ntfsRootRef then compact else setCompact compact ref (parentRef, name)
    let enq := (childrenOf entries ref).filterMap
      (fun c => if startsDollar c.2 then none else some (c.1, ref, c.2))
    bfsAux entries fuel (rest ++ enq) compact'

/-- `_build_dir_paths_compact` run with `fuel` queue pops, starting from the
well-known root reference `[(5, 5, "")]` with an empty `compact` dict. -/
def buildDirPaths (entries : List MftEntry) (fuel : Nat) : Option (List MftEntry) :=
  bfsAux entries fuel [(ntfsRootRef, ntfsRootRef, "")] []

/-- Weight of a queue item under a rank function: items of higher rank
weigh exponentially less, so that replacing a popped item by its
(strictly higher-ranked) children shrinks the total. -/
def itemWeight (rk : Nat → Nat) (base maxRk : Nat) (it : Nat × Nat × String) : Nat :=
  base ^ (maxRk + 1 - rk it.1)

/-- Total weight of the queue. -/
def queueWeight (rk : Nat → Nat) (base maxRk : Nat) (q : List (Nat × Nat × String)) : Nat :=
  (q.map (itemWeight rk base maxRk)).sum

/-- Max of `rk` over the table's reference numbers, seeded with the root. -/
def maxRank (rk : Nat → Nat) (entries : List MftEntry) : Nat :=
  (entries.map (fun e => rk e.1)).foldr max (rk ntfsRootRef)

/-- A record table on which the Stage-B loop never finishes: the root
reference 5 listed as its own parent under the name `"."`. -/
def cycEntries : List MftEntry := [(5, 5, ".")]

/-! ## Squarified treemap layout (`treemap.py`)

Sizes and coordinates are Python floats, modelled as exact rationals. -/

structure TreemapNode (α : Type) where
  label : String
  size : ℚ
  x : ℚ
  y : ℚ
  width : ℚ
  height : ℚ
  data : Option α

/-- Comparison with `none` standing for `float("inf")` (so
`inf <= inf` is true and `inf <= finite` is false, as in IEEE). -/
def infLe (a b : Option ℚ) : Bool :=
  match a, b with
  | none, none => true
  | none, some _ => false
  | some _, none => true
  | some x, some y => decide (x ≤ y)

/-- `worst_aspect_ratio(row, side_length)` of `_squarify`
(treemap.py lines 75-86); `none` is `float("inf")`. -/
def worstAspect (row : List ℚ) (side : ℚ) : Option ℚ :=
  if row = [] ∨ side ≤ 0 then none
  else
    let s := row.sum
    let maxV := (row.max?).getD 0
    let minV := (row.min?).getD 0
    if s ≤ 0 ∨ maxV ≤ 0 ∨ minV ≤ 0 then none
    else
      let s2 := side * side
      if s2 ≤ 0 then none
      else some (max ((s2 * maxV) / (s * s)) ((s * s) / (s2 * minV)))

/-- The horizontal placing loop of `layout_row`: walk the row left to
right, skip values whose width `val / row_height` is not positive, and
advance the cursor by each placed width. -/
def placeH {α : Type} (rowHeight ry : ℚ) : List ℚ → ℚ → List (TreemapNode α)
  | [], _ => []
  | v :: vs, cx =>
    let nodeWidth := v / rowHeight
    if nodeWidth ≤ 0 then placeH rowHeight ry vs cx
    else ⟨"", v, cx, ry, nodeWidth, rowHeight, none⟩ :: placeH rowHeight ry vs (cx + nodeWidth)

/-- The vertical placing loop of `layout_row`. -/
def placeV {α : Type} (rowWidth rx : ℚ) : List ℚ → ℚ → List (TreemapNode α)
  | [], _ => []
  | v :: vs, cy =>
    let nodeHeight := v / rowWidth
    if nodeHeight ≤ 0 then placeV rowWidth rx vs cy
    else ⟨"", v, rx, cy, rowWidth, nodeHeight, none⟩ :: placeV rowWidth rx vs (cy + nodeHeight)

/-- `layout_row(row, row_rect, is_horizontal)` (treemap.py lines 35-73):
returns the emitted nodes together with the remaining rectangle, `none`
standing for Python's `return None` (which emits nothing). -/
def layout_row {α : Type} (row : List ℚ) (rect : ℚ × ℚ × ℚ × ℚ) (isH : Bool) :
    List (TreemapNode α) × Option (ℚ × ℚ × ℚ × ℚ) :=
  let (rx, ry, rw, rh) := rect
  let rowSum := row.sum
  if rowSum ≤ 0 ∨ rw ≤ 0 ∨ rh ≤ 0 then ([], none)
  else if isH then
    let rowHeight := rowSum / rw
    if rowHeight ≤ 0 then ([], none)
    else (placeH rowHeight ry row rx, some (rx, ry + rowHeight, rw, rh - rowHeight))
  else
    let rowWidth := rowSum / rh
    if rowWidth ≤ 0 then ([], none)
    else (placeV rowWidth rx row ry, some (rx + rowWidth, ry, rw - rowWidth, rh))

/-- The main `while remaining:` loop of `_squarify` (treemap.py lines
93-111): peek the next value; accept it into the current row when the row
was empty or the worst aspect ratio does not get worse, otherwise lay the
current row out, shrink the rectangle, flip the direction and retry. A
`None` rectangle from `layout_row` is Python's `break` followed by the
final `if row:` re-layout, which emits nothing further. -/
def squarifyLoop {α : Type} :
    List ℚ → List ℚ → Bool → ℚ × ℚ × ℚ × ℚ → List (TreemapNode α)
  | [], row, isH, rect => (layout_row row rect isH).1
  | v :: rest, row, isH, rect =>
    let row' := row ++ [v]
    let side := if isH then rect.2.2.1 else rect.2.2.2
    if row = [] ∨ infLe (worstAspect row' side) (worstAspect row side) = true then
      squarifyLoop rest row' isH rect
    else
      match layout_row row rect isH with
      | (nodes, none) => nodes
      | (nodes, some newRect) => nodes ++ squarifyLoop (v :: rest) [] (!isH) newRect
  termination_by remaining row _ _ => 2 * remaining.length + row.length
  decreasing_by
  · simp [List.length_append]
    omega
  · rename_i hcond
    have hrow : row ≠ [] := fun hc => hcond (Or.inl hc)
    have : 1 ≤ row.length := by
      cases row with
      | nil => exact absurd rfl hrow
      | cons a as => simp
    simp
    omega

/-- `_squarify(sizes, rect)` (treemap.py lines 18-112). -/
def squarify {α : Type} (sizes : List ℚ) (rect : ℚ × ℚ × ℚ × ℚ) :
    List (TreemapNode α) :=
  let (x, y, w, h) := rect
  if sizes = [] then []
  else
    let total := sizes.sum
    if total ≤ 0 then []
    else
      let normalized := sizes.map (fun s => s / total * w * h)
      squarifyLoop normalized [] true (x, y, w, h)

/-- `build_treemap(items, width, height)` (treemap.py lines 115-139):
filter out non-positive sizes, lay the survivors out, then bind label,
size and payload back onto the nodes pairwise in order. -/
def build_treemap {α : Type} (items : List (String × ℚ × α)) (width height : Nat) :
    List (TreemapNode α) :=
  if items.isEmpty then []
  else
    let filtered := items.filter (fun it => decide (0 < it.2.1))
    if filtered.isEmpty then []
    else
      let sizes := filtered.map (fun it => it.2.1)
      let nodes := squarify (α := α) sizes (0, 0, (width : ℚ), (height : ℚ))
      (nodes.zip filtered).map
        (fun p => { p.1 with label := p.2.1, size := p.2.2.1, data := some p.2.2.2 })

/-! ## Generic scandir walker (`_scan_via_scandir`, scanner.py)

The filesystem visible to the walker is a static tree. Environmental
predicates of the source — `_match_exclude(entry.path, patterns)`,
`_is_junction_or_symlink(entry)`, `OSError` from `entry.is_dir`, `stat`
or `os.scandir` — are modelled as boolean attributes of the entries.
The `stat.S_ISDIR(st.st_mode)` re-check (a race guard) cannot fire on a
static tree and is not modelled. -/

mutual
inductive FSEntry where
  | file (name : String) (size : Nat) (statErr : Bool) (excluded : Bool)
  | errEntry (name : String)
  | dir (name : String) (excluded : Bool) (junction : Bool) (openErr : Bool)
        (entries : FSList)
inductive FSList where
  | nil
  | cons (e : FSEntry) (rest : FSList)
end

structure WalkOpts where
  followSymlinks : Bool
  maxDepth : Option Nat

structure WalkCounts where
  files : Nat
  folders : Nat
  scanned : Nat
  errors : Nat

/-- One progress-callback invocation `(file_count, folder_count,
current_dir, ratio)`; the ratio argument is called `frac` here. -/
structure PEvent where
  files : Nat
  folders : Nat
  path : String
  frac : ℚ

/-- The per-directory ratio of scanner.py lines 249-251:
`ratio = 0.0; if total_size > 0 and scanned_size > 0:
ratio = min(0.999, scanned_size / total_size)`. -/
def progressFrac (totalSize scannedSize : Nat) : ℚ :=
  if 0 < totalSize ∧ 0 < scannedSize then
    min (999 / 1000 : ℚ) ((scannedSize : ℚ) / (totalSize : ℚ))
  else 0

/-- Per-directory tally of the `for entry in it:` loop (scanner.py lines
190-244): counts of files, accepted subdirectories, scanned bytes and
errors contributed by one directory's entries. -/
def tallyEntries (followSymlinks : Bool) : FSList → WalkCounts
  | .nil => ⟨0, 0, 0, 0⟩
  | .cons e rest =>
    let r := tallyEntries followSymlinks rest
    match e with
    | .errEntry _ => ⟨r.files, r.folders, r.scanned, r.errors + 1⟩
    | .dir _ excluded junction _ _ =>
      if excluded then r
      else if !followSymlinks && junction then r
      else ⟨r.files, r.folders + 1, r.scanned, r.errors⟩
    | .file _ size statErr excluded =>
      if excluded then r
      else if statErr then ⟨r.files, r.folders, r.scanned, r.errors + 1⟩
      else ⟨r.files + 1, r.folders, r.scanned + size, r.errors⟩

/-- A subdirectory is descended into iff it was accepted into `subdirs`
by the entry loop: not excluded, and not a junction when symlinks are
not followed. -/
def acceptDir (followSymlinks excluded junction : Bool) : Bool :=
  !excluded && !(!followSymlinks && junction)

/-- Pointwise accumulation of the shared counters. -/
def stAdd (a b : WalkCounts) : WalkCounts :=
  ⟨a.files + b.files, a.folders + b.folders, a.scanned + b.scanned,
   a.errors + b.errors⟩

/-- The `max_depth` guard of scanner.py lines 176-179, with the depth
carried explicitly (the source derives it from separator counts). -/
def depthExceeded (o : WalkOpts) (depth : Nat) : Bool :=
  match o.maxDepth with
  | some md => decide (md < depth)
  | none => false

mutual
/-- Processing of one popped directory of the `while stack:` loop
(scanner.py lines 173-252): skip on depth, count an error when
`os.scandir` fails, otherwise tally the entries, emit one progress event
with the cumulative counts, and continue with the accepted
subdirectories. The source pops from the end of `stack` after
`stack.extend(subdirs)`, so the subdirectories of the current directory
are processed in reverse `scandir` order before any older stack entry —
rendered here as recursion over the entry list from the tail. -/
def walkDir (o : WalkOpts) (total : Nat) (path : String) (depth : Nat)
    (openErr : Bool) (es : FSList) (st : WalkCounts) : WalkCounts × List PEvent :=
  if depthExceeded o depth then (st, [])
  else if openErr then (⟨st.files, st.folders, st.scanned, st.errors + 1⟩, [])
  else
    ((walkSubs o total path depth es (stAdd st (tallyEntries o.followSymlinks es))).1,
      (⟨(stAdd st (tallyEntries o.followSymlinks es)).files,
        (stAdd st (tallyEntries o.followSymlinks es)).folders, path,
        progressFrac total (stAdd st (tallyEntries o.followSymlinks es)).scanned⟩ :
          PEvent) ::
        (walkSubs o total path depth es (stAdd st (tallyEntries o.followSymlinks es))).2)
termination_by (sizeOf es, 1)

/-- Descend into the accepted subdirectories of an entry list, last one
first (the LIFO order of the source's stack). -/
def walkSubs (o : WalkOpts) (total : Nat) (path : String) (depth : Nat)
    (es : FSList) (st : WalkCounts) : WalkCounts × List PEvent :=
  match es with
  | .nil => (st, [])
  | .cons e rest =>
    match e with
    | .dir name excluded junction openErr children =>
      if acceptDir o.followSymlinks excluded junction then
        ((walkDir o total (path ++ "\\" ++ name) (depth + 1) openErr children
            (walkSubs o total path depth rest st).1).1,
          (walkSubs o total path depth rest st).2 ++
            (walkDir o total (path ++ "\\" ++ name) (depth + 1) openErr children
              (walkSubs o total path depth rest st).1).2)
      else walkSubs o total path depth rest st
    | _ => walkSubs o total path depth rest st
termination_by (sizeOf es, 0)
end

/-- `_scan_via_scandir` (scanner.py lines 143-282), restricted to its
observable progress-event trace: `disk_usage` is the environment's answer
to `shutil.disk_usage` (`none` = the call raised, recording all three
sizes as `0`, lines 157-163); the walk starts at the root with depth `0`
and zero counts, and after the loop one final event with ratio `1.0` is
emitted (lines 279-280). -/
def capacityOf (diskUsage : Option (Nat × Nat × Nat)) : Nat :=
  match diskUsage with
  | some du => du.1
  | none => 0

def scanViaScandir (o : WalkOpts) (diskUsage : Option (Nat × Nat × Nat))
    (rootPath : String) (rootOpenErr : Bool) (rootEntries : FSList) :
    List PEvent :=
  (walkDir o (capacityOf diskUsage) rootPath 0 rootOpenErr rootEntries
      ⟨0, 0, 0, 0⟩).2 ++
    [⟨(walkDir o (capacityOf diskUsage) rootPath 0 rootOpenErr rootEntries
        ⟨0, 0, 0, 0⟩).1.files,
      (walkDir o (capacityOf diskUsage) rootPath 0 rootOpenErr rootEntries
        ⟨0, 0, 0, 0⟩).1.folders,
      rootPath, 1⟩]

/-! ## ETA estimator (`_update_progress_ui`, main.py lines 577-595) -/

inductive EtaState where
  | estimating
  | numeric (remaining : ℚ)
deriving DecidableEq

/-- The retained sliding window: append the current `(now, ratio)` sample,
then keep only samples at most 15 seconds old
(`self._progress_history.append((now, ratio))` and the `cutoff` filter,
main.py lines 584-587). -/
def prunedHistory (history : List (ℚ × ℚ)) (now frac : ℚ) : List (ℚ × ℚ) :=
  (history ++ [(now, frac)]).filter (fun p => decide (now - 15 ≤ p.1))

/-- The sliding-window ETA computation of `_update_progress_ui`: a numeric
estimate `max 0 ((1 - ratio) / (Δratio / Δtime))` is produced only when
the window holds at least two samples, the ratio is at least `0.05`, the
oldest retained sample is at least `10` seconds old, and the ratio has
grown by more than `0.01` over the window; otherwise the explicit
"estimating" state. Returns the pruned window and the state. -/
def update_progress_eta (history : List (ℚ × ℚ)) (now frac : ℚ) :
    List (ℚ × ℚ) × EtaState :=
  (prunedHistory history now frac,
    if 2 ≤ (prunedHistory history now frac).length ∧ 5 / 100 ≤ frac then
      if 10 ≤ now - ((prunedHistory history now frac).headD (0, 0)).1 ∧
          1 / 100 < frac - ((prunedHistory history now frac).headD (0, 0)).2 then
        EtaState.numeric (max 0 ((1 - frac) /
          ((frac - ((prunedHistory history now frac).headD (0, 0)).2) /
           (now - ((prunedHistory history now frac).headD (0, 0)).1))))
      else EtaState.estimating
    else EtaState.estimating)

/-! ## Backend dispatcher (`scan_path`, scanner.py lines 348-366)

The two backends are opaque state transformers on the shared hierarchy
object: the MFT backend either returns a result or raises (mutations to
the shared hierarchy made before the raise persist, since the Python
code passes the same dict object to both backends). -/

def scan_path_model {O R H E : Type} (canUseMft : O → Bool)
    (mftScan : O → H → Except E R × H) (scandirScan : O → H → R × H)
    (opts : O) (shared : H) : R × H :=
  if canUseMft opts then
    match mftScan opts shared with
    | (.ok r, h') => (r, h')
    | (.error _, h') => scandirScan opts h'
  else scandirScan opts shared

/-! ## Basic lemmas -/

theorem HNode.total_mk (t : Int) (c : List (String × HNode)) :
    (HNode.mk t c).total = t := rfl

theorem HNode.children_mk (t : Int) (c : List (String × HNode)) :
    (HNode.mk t c).children = c := rfl

theorem splitCore_ne_nil (l : List Char) : splitCore l ≠ [] := by
  cases l with
  | nil => simp [splitCore]
  | cons c rest =>
    simp only [splitCore]
    split <;> simp

theorem splitPath_ne_nil (s : String) : splitPath s ≠ [] := by
  simp [splitPath, splitCore_ne_nil]

theorem keepParts_ne_nil (parts : List String) (hp : parts ≠ []) :
    keepParts parts ≠ [] := by
  unfold keepParts
  split
  · exact hp
  · rename_i hlen
    have h2 : 2 ≤ parts.length := by omega
    have : parts.dropLast.length = parts.length - 1 := List.length_dropLast parts
    intro hc
    rw [hc] at this
    simp at this
    omega

theorem lookupA_setA (m : Hierarchy) (key : String) (v : HNode) (k : String) :
    lookupA (setA m key v) k = if key = k then some v else lookupA m k := by
  induction m with
  | nil =>
    by_cases hk : key = k <;> simp [setA, lookupA, hk]
  | cons p rest ih =>
    obtain ⟨pk, pv⟩ := p
    by_cases hpk : pk = key
    · subst hpk
      by_cases hk : pk = k <;> simp [setA, lookupA, hk]
    · by_cases hk : pk = k
      · subst hk
        have hkey : ¬ key = pk := fun h => hpk h.symm
        simp [setA, hpk, lookupA, hkey]
      · simp [setA, hpk, lookupA, hk, ih]

theorem lookupPath_nil_left (q : List String) : lookupPath ([] : Hierarchy) q = none := by
  cases q with
  | nil => rfl
  | cons k qs => cases qs <;> rfl

theorem lookupPath_one (h : Hierarchy) (d : String) :
    lookupPath h [d] = lookupA h d := by
  rw [lookupPath.eq_def]
  simp only []
  rcases hl : lookupA h d with _ | n <;> rfl

theorem lookupPath_cons₂ (h : Hierarchy) (d q1 : String) (qs : List String) :
    lookupPath h (d :: q1 :: qs) =
      lookupPath (((lookupA h d).map HNode.children).getD []) (q1 :: qs) := by
  rw [lookupPath.eq_def]
  simp only []
  rcases hl : lookupA h d with _ | n
  · simp only [Option.map_none', Option.getD_none]
    rw [lookupPath_nil_left]
  · simp only [Option.map_some', Option.getD_some]

theorem getD_children (o : Option HNode) :
    (o.getD (.mk 0 [])).children = (o.map HNode.children).getD [] := by
  rcases o with _ | n <;> rfl

theorem getD_total (o : Option HNode) :
    (o.getD (.mk 0 [])).total = (o.map HNode.total).getD 0 := by
  rcases o with _ | n <;> rfl

theorem isPre_refl (q : List String) : isPre q q = true := by
  induction q with
  | nil => rfl
  | cons a as ih => simp [isPre, ih]

theorem isPre_length_le (q dirs : List String) (hp : isPre q dirs = true) :
    q.length ≤ dirs.length := by
  induction q generalizing dirs with
  | nil => simp
  | cons a as ih =>
    cases dirs with
    | nil => simp [isPre] at hp
    | cons b bs =>
      simp only [isPre, Bool.and_eq_true] at hp
      have := ih bs hp.2
      simp
      omega

theorem isPre_eq_of_length (q dirs : List String) (hp : isPre q dirs = true)
    (hl : dirs.length ≤ q.length) : q = dirs := by
  induction q generalizing dirs with
  | nil =>
    cases dirs with
    | nil => rfl
    | cons b bs => simp at hl
  | cons a as ih =>
    cases dirs with
    | nil => simp [isPre] at hp
    | cons b bs =>
      simp only [isPre, Bool.and_eq_true, decide_eq_true_eq] at hp
      simp only [List.length_cons] at hl
      rw [hp.1, ih bs hp.2 (by omega)]

/-- Characterization of `addDirs`: a node at a nonempty path `q` is
affected exactly when `q` is a prefix of the walked component list, in
which case its `total` gains `size` and the walk continues in its
children with the remaining components. -/
theorem lookupPath_addDirs (dirs : List String) :
    ∀ (h : Hierarchy) (s : Int) (q : List String), q ≠ [] →
    lookupPath (addDirs h dirs s) q =
      if isPre q dirs then
        some (.mk (totAt h q + s) (addDirs (chAt h q) (dirs.drop q.length) s))
      else lookupPath h q := by
  induction dirs with
  | nil =>
    intro h s q hq
    rcases q with _ | ⟨k, qs⟩
    · exact absurd rfl hq
    · simp [addDirs, isPre]
  | cons d ds ih =>
    intro h s q hq
    rcases q with _ | ⟨k, qs⟩
    · exact absurd rfl hq
    simp only [addDirs]
    by_cases hdk : d = k
    · subst hdk
      rcases qs with _ | ⟨q1, qs'⟩
      · -- q = [d]
        rw [lookupPath_one, lookupA_setA, if_pos rfl]
        have hpre : isPre [d] (d :: ds) = true := by simp [isPre]
        rw [if_pos hpre]
        have ht : totAt h [d] = ((lookupA h d).getD (.mk 0 [])).total := by
          simp only [totAt, lookupTot]
          rw [lookupPath_one, getD_total]
        have hc : chAt h [d] = ((lookupA h d).getD (.mk 0 [])).children := by
          simp only [chAt]
          rw [lookupPath_one, getD_children]
        rw [ht, hc]
        simp only [List.length_cons, List.length_nil, List.drop_succ_cons,
          List.drop_zero]
      · -- q = d :: q1 :: qs'
        rw [lookupPath_cons₂, lookupA_setA, if_pos rfl]
        simp only [Option.map_some', Option.getD_some, HNode.children_mk]
        rw [ih _ s (q1 :: qs') (by simp)]
        have hiff : isPre (d :: q1 :: qs') (d :: ds) = isPre (q1 :: qs') ds := by
          simp [isPre]
        rw [hiff]
        by_cases hp : isPre (q1 :: qs') ds = true
        · rw [if_pos hp, if_pos hp]
          have ht : totAt ((lookupA h d).getD (.mk 0 [])).children (q1 :: qs') =
              totAt h (d :: q1 :: qs') := by
            simp only [totAt, lookupTot]
            rw [lookupPath_cons₂, getD_children]
          have hc : chAt ((lookupA h d).getD (.mk 0 [])).children (q1 :: qs') =
              chAt h (d :: q1 :: qs') := by
            simp only [chAt]
            rw [lookupPath_cons₂, getD_children]
          rw [ht, hc]
          simp
        · rw [if_neg hp, if_neg hp, lookupPath_cons₂, getD_children]
    · -- heads differ: untouched
      have hkd : ¬ k = d := fun h => hdk h.symm
      have hpre : isPre (k :: qs) (d :: ds) = false := by
        simp [isPre, hkd]
      rw [hpre]
      simp only [Bool.false_eq_true, if_false]
      rcases qs with _ | ⟨q1, qs'⟩
      · rw [lookupPath_one, lookupPath_one, lookupA_setA,
          if_neg (fun h : d = k => hdk h)]
      · rw [lookupPath_cons₂, lookupPath_cons₂, lookupA_setA,
          if_neg (fun h : d = k => hdk h)]

/-- `_add_size_to_hierarchy` always walks exactly `keepParts` of the split
path: the whole path for a single component, all but the last otherwise. -/
theorem add_eq_addDirs (h : Hierarchy) (rel_path : String) (size : Int) :
    add_size_to_hierarchy h rel_path size =
      addDirs h (keepParts (splitPath rel_path)) size := by
  have hne := splitPath_ne_nil rel_path
  unfold add_size_to_hierarchy keepParts
  rcases hsp : splitPath rel_path with _ | ⟨k, rest⟩
  · exact absurd hsp hne
  · rcases rest with _ | ⟨k2, rest2⟩
    · simp [addDirs]
    · have : ¬ (k :: k2 :: rest2).length ≤ 1 := by simp
      rw [if_neg this, if_neg this]

theorem lookupPath_nil_right (h : Hierarchy) : lookupPath h [] = none := by
  rw [lookupPath.eq_def]

theorem memPath_add (h : Hierarchy) (p : String) (s : Int) (q : List String)
    (hq : q ≠ []) :
    memPath (add_size_to_hierarchy h p s) q =
      (memPath h q || isPre q (keepParts (splitPath p))) := by
  unfold memPath
  rw [add_eq_addDirs, lookupPath_addDirs _ _ _ _ hq]
  by_cases hp : isPre q (keepParts (splitPath p)) = true
  · rw [if_pos hp, hp]
    simp
  · have hfalse : isPre q (keepParts (splitPath p)) = false := by
      cases hb : isPre q (keepParts (splitPath p))
      · rfl
      · exact absurd hb hp
    rw [if_neg hp, hfalse]
    simp

/-- The `total`-sum of a children dict after a key write. -/
theorem sumTot_setA (m : Hierarchy) (k : String) (v : HNode) :
    sumTot (setA m k v) =
      sumTot m + v.total - ((lookupA m k).map HNode.total).getD 0 := by
  induction m with
  | nil => simp [setA, sumTot, lookupA]
  | cons p rest ih =>
    obtain ⟨pk, pv⟩ := p
    by_cases hpk : pk = k
    · subst hpk
      simp [setA, sumTot, lookupA]
      ring
    · simp only [setA, hpk, if_false, sumTot, List.map_cons, List.sum_cons,
        lookupA] at *
      rw [ih]
      ring

/-- Walking a nonempty component list adds exactly `s` to the `total`-sum
of the dict it starts in. -/
theorem sumTot_addDirs (h : Hierarchy) (dirs : List String) (s : Int) :
    sumTot (addDirs h dirs s) = sumTot h + (if dirs = [] then 0 else s) := by
  cases dirs with
  | nil => simp [addDirs]
  | cons d ds =>
    simp only [addDirs]
    rw [sumTot_setA, HNode.total_mk, getD_total]
    simp
    ring

theorem directSum_cons (op : String × Int) (rest : List (String × Int))
    (q : List String) :
    directSum (op :: rest) q =
      (if keepParts (splitPath op.1) = q then op.2 else 0) + directSum rest q := by
  simp only [directSum, List.filter_cons]
  by_cases hc : keepParts (splitPath op.1) = q
  · simp [hc]
  · simp [hc]

/-- The per-node accounting invariant, relative to a ghost assignment `D`
of "directly attributed" sizes to component paths: every present node's
`total` is its direct sizes plus its children's `total`s, and absent
nonempty paths carry no direct sizes. -/
def HInv (D : List String → Int) (h : Hierarchy) : Prop :=
  (∀ q n, lookupPath h q = some n → n.total = D q + childrenTotal n) ∧
  (∀ q, q ≠ [] → lookupPath h q = none → D q = 0)

theorem HInv_congr (D D' : List String → Int) (h : Hierarchy)
    (heq : ∀ q, D q = D' q) (hinv : HInv D h) : HInv D' h := by
  obtain ⟨h1, h2⟩ := hinv
  exact ⟨fun q n hl => heq q ▸ h1 q n hl, fun q hq hl => heq q ▸ h2 q hq hl⟩

theorem HInv_empty : HInv (fun _ => 0) [] := by
  constructor
  · intro q n hl
    rw [lookupPath_nil_left] at hl
    exact absurd hl (by simp)
  · intro q hq hl
    rfl

/-- The accounting invariant is preserved by one `addDirs` walk, the
walked path gaining `s` of directly attributed size. -/
theorem HInv_addDirs (D : List String → Int) (h : Hierarchy) (dirs : List String)
    (s : Int) (hd : dirs ≠ []) (hinv : HInv D h) :
    HInv (fun q => D q + (if q = dirs then s else 0)) (addDirs h dirs s) := by
  have key : ∀ q : List String, q ≠ [] → totAt h q = D q + sumTot (chAt h q) := by
    intro q hq
    rcases hlp : lookupPath h q with _ | m
    · have hD := hinv.2 q hq hlp
      simp [totAt, lookupTot, chAt, hlp, hD, sumTot]
    · have hm := hinv.1 q m hlp
      simp only [totAt, lookupTot, chAt, hlp, Option.map_some', Option.getD_some]
      exact hm
  constructor
  · intro q n hlk
    have hq : q ≠ [] := by
      rintro rfl
      rw [lookupPath_nil_right] at hlk
      exact absurd hlk (by simp)
    rw [lookupPath_addDirs _ _ _ _ hq] at hlk
    by_cases hp : isPre q dirs = true
    · rw [if_pos hp] at hlk
      obtain rfl := Option.some.inj hlk
      simp only [HNode.total_mk, childrenTotal, HNode.children_mk]
      rw [sumTot_addDirs, key q hq]
      by_cases hqd : q = dirs
      · subst hqd
        rw [List.drop_length]
        simp
        ring
      · have hle := isPre_length_le q dirs hp
        have hlen : q.length < dirs.length := by
          rcases Nat.eq_or_lt_of_le hle with heq | hlt
          · exact absurd (isPre_eq_of_length q dirs hp (by omega)) hqd
          · exact hlt
        have hrest : dirs.drop q.length ≠ [] := by
          intro hc
          have hdl : (dirs.drop q.length).length = dirs.length - q.length :=
            List.length_drop _ _
          rw [hc] at hdl
          simp at hdl
          omega
        rw [if_neg hqd, if_neg hrest]
        ring
    · rw [if_neg hp] at hlk
      have hqd : ¬ q = dirs := by
        rintro rfl
        exact hp (isPre_refl q)
      have hn := hinv.1 q n hlk
      show n.total = (D q + if q = dirs then s else 0) + childrenTotal n
      rw [if_neg hqd, hn]
      ring
  · intro q hq hnone
    rw [lookupPath_addDirs _ _ _ _ hq] at hnone
    by_cases hp : isPre q dirs = true
    · rw [if_pos hp] at hnone
      exact absurd hnone (by simp)
    · rw [if_neg hp] at hnone
      have hqd : ¬ q = dirs := by
        rintro rfl
        exact hp (isPre_refl q)
      show (D q + if q = dirs then s else 0) = 0
      rw [if_neg hqd, hinv.2 q hq hnone]
      ring

/-- Folding a batch of operations over an invariant-satisfying hierarchy
adds each operation's size to its walked path's direct attribution. -/
theorem HInv_foldl (ops : List (String × Int)) :
    ∀ (h : Hierarchy) (D : List String → Int),
    HInv D h → HInv (fun q => D q + directSum ops q) (ops.foldl addOp h) := by
  induction ops with
  | nil =>
    intro h D hinv
    exact HInv_congr _ _ _ (fun q => by simp [directSum]) hinv
  | cons op rest ih =>
    intro h D hinv
    rw [List.foldl_cons]
    have hK : keepParts (splitPath op.1) ≠ [] :=
      keepParts_ne_nil _ (splitPath_ne_nil _)
    have h1 : HInv (fun q => D q + (if q = keepParts (splitPath op.1) then op.2 else 0))
        (addOp h op) := by
      unfold addOp
      rw [add_eq_addDirs]
      exact HInv_addDirs D h _ op.2 hK hinv
    have h2 := ih (addOp h op) _ h1
    refine HInv_congr _ _ _ (fun q => ?_) h2
    rw [directSum_cons]
    by_cases hc : q = keepParts (splitPath op.1)
    · rw [if_pos hc, if_pos hc.symm]
      ring
    · rw [if_neg hc, if_neg (fun hcc => hc hcc.symm)]
      ring

theorem lookupTot_addDirs (h : Hierarchy) (dirs : List String) (s : Int)
    (q : List String) (hq : q ≠ []) :
    lookupTot (addDirs h dirs s) q =
      if isPre q dirs then some (totAt h q + s) else lookupTot h q := by
  unfold lookupTot
  rw [lookupPath_addDirs _ _ _ _ hq]
  by_cases hp : isPre q dirs = true
  · rw [if_pos hp, if_pos hp]
    simp [HNode.total_mk, totAt, lookupTot]
  · rw [if_neg hp, if_neg hp]

/-- Extensional characterization of a fold of `add` operations: a nonempty
path holds a node exactly when it was already present or is a prefix of
some operation's walked components, and its `total` is the starting value
plus the sum of the contributing operations' sizes. -/
theorem lookupTot_foldl (ops : List (String × Int)) :
    ∀ (h : Hierarchy) (q : List String), q ≠ [] →
    lookupTot (ops.foldl addOp h) q =
      if (lookupTot h q).isSome = true ∨
          ops.any (fun op => isPre q (keepParts (splitPath op.1))) = true then
        some ((lookupTot h q).getD 0 +
          (ops.map
            (fun op => if isPre q (keepParts (splitPath op.1)) then op.2 else 0)).sum)
      else none := by
  induction ops with
  | nil =>
    intro h q hq
    simp only [List.foldl_nil, List.any_nil, List.map_nil, List.sum_nil, or_false]
    rcases hlt : lookupTot h q with _ | t
    · simp
    · simp
  | cons op rest ih =>
    intro h q hq
    rw [List.foldl_cons, ih (addOp h op) q hq]
    have hstep : lookupTot (addOp h op) q =
        if isPre q (keepParts (splitPath op.1)) then some (totAt h q + op.2)
        else lookupTot h q := by
      unfold addOp
      rw [add_eq_addDirs]
      exact lookupTot_addDirs _ _ _ _ hq
    by_cases hP : isPre q (keepParts (splitPath op.1)) = true
    · rw [hstep, if_pos hP]
      have hcondL : (some (totAt h q + op.2)).isSome = true ∨
          rest.any (fun op => isPre q (keepParts (splitPath op.1))) = true :=
        Or.inl rfl
      rw [if_pos hcondL]
      have hcondR : (lookupTot h q).isSome = true ∨
          (op :: rest).any (fun op => isPre q (keepParts (splitPath op.1))) = true := by
        right
        simp [List.any_cons, hP]
      rw [if_pos hcondR]
      simp only [Option.getD_some, List.map_cons, List.sum_cons, if_pos hP]
      have htot : totAt h q = (lookupTot h q).getD 0 := rfl
      rw [htot]
      congr 1
      ring
    · rw [hstep, if_neg hP]
      have hfalse : isPre q (keepParts (splitPath op.1)) = false := by
        cases hb : isPre q (keepParts (splitPath op.1))
        · rfl
        · exact absurd hb hP
      have hconds : ((lookupTot h q).isSome = true ∨
            (op :: rest).any (fun op => isPre q (keepParts (splitPath op.1))) = true) ↔
          ((lookupTot h q).isSome = true ∨
            rest.any (fun op => isPre q (keepParts (splitPath op.1))) = true) := by
        simp [List.any_cons, hfalse]
      by_cases hc : (lookupTot h q).isSome = true ∨
          rest.any (fun op => isPre q (keepParts (splitPath op.1))) = true
      · rw [if_pos hc, if_pos (hconds.mpr hc)]
        simp only [List.map_cons, List.sum_cons, if_neg hP]
        congr 1
        ring
      · rw [if_neg hc, if_neg (fun hcc => hc (hconds.mp hcc))]

/-! ## Claim C1 -/

/-- C1, counterexample: the claim says the last component of a well-formed
relative path is never inserted as a node, explicitly including
single-component paths. But `add("a.txt", 5)` on the empty hierarchy does
insert the single (hence last) component `"a.txt"` as a top-level node
carrying the file's size. -/
theorem C1_counterexample :
    memPath (add_size_to_hierarchy [] "a.txt" 5) ["a.txt"] = true ∧
    lookupTot (add_size_to_hierarchy [] "a.txt" 5) ["a.txt"] = some 5 := by decide

/-- C1 (amended): after `add(rel_path, size)`, a nonempty component path is
present as a node iff it was already present or is a prefix of the walked
components — all components but the last for paths of two or more
components, in which case the leaf filename is indeed never inserted, but
the whole (single) component for a path consisting of one component. -/
theorem C1_amended (h : Hierarchy) (rel_path : String) (size : Int)
    (q : List String) (hq : q ≠ []) :
    memPath (add_size_to_hierarchy h rel_path size) q = true ↔
      (memPath h q = true ∨ isPre q (keepParts (splitPath rel_path)) = true) := by
  rw [memPath_add h rel_path size q hq]
  simp

theorem C1_amended_witness :
    (["a"] : List String) ≠ [] ∧
    (memPath (add_size_to_hierarchy [] "a\\b.txt" 4) ["a"] = true ↔
      (memPath ([] : Hierarchy) ["a"] = true ∨
        isPre ["a"] (keepParts (splitPath "a\\b.txt")) = true)) :=
  ⟨by decide, C1_amended [] "a\\b.txt" 4 ["a"] (by decide)⟩

/-! ## Claim C3 -/

/-- C3, counterexample: reading "files added directly under a node" as
files whose *directory* prefix (all components but the last) ends at that
node, the invariant fails after the single add `("a.txt", 5)`: the node
`["a.txt"]` holds `total = 5` with no children, yet no file's directory
prefix ends there (`claimDirectSum` is `0`), so `5 ≠ 0 + 0`. -/
theorem C3_counterexample :
    lookupTot (applyOps [("a.txt", 5)]) ["a.txt"] = some 5 ∧
    (lookupPath (applyOps [("a.txt", 5)]) ["a.txt"]).map childrenTotal = some 0 ∧
    claimDirectSum [("a.txt", 5)] ["a.txt"] = 0 ∧
    (5 : Int) ≠ claimDirectSum [("a.txt", 5)] ["a.txt"] + 0 := by decide

/-- C3 (amended): for every hierarchy built by a finite sequence of adds
from the empty hierarchy, every present node's `total` equals the sum of
the sizes of the operations attributed directly to it — those whose walked
component path (`keepParts`: the directory prefix for multi-component
paths, the whole path for single-component ones) ends exactly at the node
— plus the sum of its children's `total`s. The invariant arises from the
incremental `add` updates alone; no traversal recomputes it. -/
theorem C3_amended (ops : List (String × Int)) (q : List String) (n : HNode)
    (hlk : lookupPath (applyOps ops) q = some n) :
    n.total = directSum ops q + childrenTotal n := by
  have h2 := HInv_foldl ops [] (fun _ => 0) HInv_empty
  have h3 := HInv_congr _ (fun q => directSum ops q) _ (fun q => by simp) h2
  exact h3.1 q n hlk

theorem C3_amended_witness :
    lookupPath (applyOps [("a\\b.txt", 3)]) ["a"] = some (.mk 3 []) ∧
    (HNode.mk 3 []).total = directSum [("a\\b.txt", 3)] ["a"] + childrenTotal (.mk 3 []) :=
  ⟨by rfl, C3_amended [("a\\b.txt", 3)] ["a"] (.mk 3 []) (by rfl)⟩

/-! ## Claim C4 -/

/-- C4: hierarchy aggregation is order-independent. Two permutations of
the same finite batch of `(rel_path, size)` operations, each applied to
the empty hierarchy, yield trees that agree as trees: at every component
path, the same node presence and the same `total` (hence the same keys
and the same children, level by level). -/
theorem C4_order_independence (ops₁ ops₂ : List (String × Int))
    (hperm : ops₁.Perm ops₂) (q : List String) :
    lookupTot (applyOps ops₁) q = lookupTot (applyOps ops₂) q := by
  rcases q with _ | ⟨k, qs⟩
  · simp [lookupTot, lookupPath_nil_right]
  · have hq : (k :: qs) ≠ ([] : List String) := by simp
    unfold applyOps
    rw [lookupTot_foldl _ _ _ hq, lookupTot_foldl _ _ _ hq]
    have hany : ops₁.any (fun op => isPre (k :: qs) (keepParts (splitPath op.1))) =
        ops₂.any (fun op => isPre (k :: qs) (keepParts (splitPath op.1))) := by
      rw [Bool.eq_iff_iff]
      simp only [List.any_eq_true]
      constructor
      · rintro ⟨x, hx, hfx⟩
        exact ⟨x, hperm.mem_iff.mp hx, hfx⟩
      · rintro ⟨x, hx, hfx⟩
        exact ⟨x, hperm.mem_iff.mpr hx, hfx⟩
    have hsum : (ops₁.map
          (fun op => if isPre (k :: qs) (keepParts (splitPath op.1)) then op.2 else 0)).sum =
        (ops₂.map
          (fun op => if isPre (k :: qs) (keepParts (splitPath op.1)) then op.2 else 0)).sum :=
      (hperm.map _).sum_eq
    rw [hany, hsum]

theorem C4_order_independence_witness :
    ([("a\\x.txt", (1 : Int)), ("b\\y.txt", 2)]).Perm
      [("b\\y.txt", 2), ("a\\x.txt", 1)] ∧
    lookupTot (applyOps [("a\\x.txt", 1), ("b\\y.txt", 2)]) ["a"] =
      lookupTot (applyOps [("b\\y.txt", 2), ("a\\x.txt", 1)]) ["a"] :=
  ⟨by decide, C4_order_independence _ _ (by decide) ["a"]⟩

/-! ## Claim C2 lemmas -/

theorem le_foldr_max_base (l : List Nat) (b : Nat) : b ≤ l.foldr max b := by
  induction l with
  | nil => exact Nat.le_refl b
  | cons x xs ih => exact le_trans ih (le_max_right x (xs.foldr max b))

theorem le_foldr_max_mem (l : List Nat) (b a : Nat) (ha : a ∈ l) :
    a ≤ l.foldr max b := by
  induction l with
  | nil => cases ha
  | cons x xs ih =>
    rcases List.mem_cons.mp ha with rfl | hmem
    · exact le_max_left a (xs.foldr max b)
    · exact le_trans (ih hmem) (le_max_right x (xs.foldr max b))

theorem maxRank_root (rk : Nat → Nat) (entries : List MftEntry) :
    rk ntfsRootRef ≤ maxRank rk entries :=
  le_foldr_max_base _ _

theorem maxRank_mem (rk : Nat → Nat) (entries : List MftEntry) (e : MftEntry)
    (he : e ∈ entries) : rk e.1 ≤ maxRank rk entries :=
  le_foldr_max_mem _ _ _ (List.mem_map_of_mem (fun e => rk e.1) he)

theorem childrenOf_mem (entries : List MftEntry) (p : Nat) (c : Nat × String)
    (hc : c ∈ childrenOf entries p) :
    ∃ e ∈ entries, e.1 = c.1 ∧ e.2.1 = p := by
  obtain ⟨e, he, hfe⟩ := List.mem_filterMap.mp hc
  by_cases hp : e.2.1 = p
  · rw [if_pos hp] at hfe
    obtain rfl := (Option.some.inj hfe).symm
    exact ⟨e, he, rfl, hp⟩
  · rw [if_neg hp] at hfe
    cases hfe

theorem queueWeight_cons (rk : Nat → Nat) (base M : Nat)
    (it : Nat × Nat × String) (q : List (Nat × Nat × String)) :
    queueWeight rk base M (it :: q) =
      itemWeight rk base M it + queueWeight rk base M q := by
  simp [queueWeight]

theorem queueWeight_append (rk : Nat → Nat) (base M : Nat)
    (q₁ q₂ : List (Nat × Nat × String)) :
    queueWeight rk base M (q₁ ++ q₂) =
      queueWeight rk base M q₁ + queueWeight rk base M q₂ := by
  simp [queueWeight]

theorem queueWeight_le (rk : Nat → Nat) (base M bound : Nat)
    (q : List (Nat × Nat × String))
    (hb : ∀ it ∈ q, itemWeight rk base M it ≤ bound) :
    queueWeight rk base M q ≤ q.length * bound := by
  induction q with
  | nil => simp [queueWeight]
  | cons it rest ih =>
    rw [queueWeight_cons]
    have h1 : itemWeight rk base M it ≤ bound := hb it (List.mem_cons_self _ _)
    have h2 : queueWeight rk base M rest ≤ rest.length * bound :=
      ih (fun x hx => hb x (List.mem_cons_of_mem _ hx))
    calc itemWeight rk base M it + queueWeight rk base M rest
        ≤ bound + rest.length * bound := Nat.add_le_add h1 h2
      _ = (rest.length + 1) * bound := by rw [Nat.succ_mul, Nat.add_comm]
      _ = (it :: rest).length * bound := by simp

/-- Under a rank function that strictly increases from parent to child
(the encoding of an acyclic parent-pointer table), every `bfsAux` run
from a queue of root-bounded ranks finds enough fuel to drain the queue. -/
theorem bfs_run (entries : List MftEntry) (rk : Nat → Nat)
    (hrk : ∀ e ∈ entries, rk e.2.1 < rk e.1) :
    ∀ (w : Nat) (queue : List (Nat × Nat × String)) (compact : List MftEntry),
      queueWeight rk (entries.length + 1) (maxRank rk entries) queue = w →
      (∀ it ∈ queue, rk it.1 ≤ maxRank rk entries) →
      ∃ n, (bfsAux entries n queue compact).isSome = true := by
  intro w
  induction w using Nat.strong_induction_on with
  | _ w ih =>
    intro queue compact hw hgood
    match queue with
    | [] => exact ⟨0, by simp [bfsAux]⟩
    | (ref, pref, name) :: rest =>
      have hgref : rk ref ≤ maxRank rk entries :=
        hgood _ (List.mem_cons_self _ _)
      set B := entries.length with hB
      set M := maxRank rk entries with hM
      set enq := (childrenOf entries ref).filterMap
        (fun c => if startsDollar c.2 then none else some (c.1, ref, c.2))
        with henq
      set compact' :=
        (if ref = ntfsRootRef then compact else setCompact compact ref (pref, name))
        with hcompact
      have henq_prop : ∀ it ∈ enq, rk ref < rk it.1 ∧ rk it.1 ≤ M := by
        intro it hit
        rw [henq] at hit
        obtain ⟨c, hc, hfc⟩ := List.mem_filterMap.mp hit
        by_cases hs : startsDollar c.2 = true
        · rw [if_pos hs] at hfc
          cases hfc
        · rw [if_neg hs] at hfc
          obtain rfl := (Option.some.inj hfc).symm
          obtain ⟨e, he, he1, he2⟩ := childrenOf_mem entries ref c hc
          constructor
          · have := hrk e he
            rw [he2] at this
            rw [← he1]
            exact this
          · rw [← he1]
            exact maxRank_mem rk entries e he
      have henq_good : ∀ it ∈ rest ++ enq, rk it.1 ≤ M := by
        intro it hit
        rcases List.mem_append.mp hit with hr | he
        · exact hgood _ (List.mem_cons_of_mem _ hr)
        · exact (henq_prop it he).2
      have hxpos : 0 < (B + 1) ^ (M - rk ref) := Nat.pos_pow_of_pos _ (by omega)
      have hitem : ∀ it ∈ enq,
          itemWeight rk (B + 1) M it ≤ (B + 1) ^ (M - rk ref) := by
        intro it hit
        obtain ⟨hlt, hle⟩ := henq_prop it hit
        unfold itemWeight
        exact Nat.pow_le_pow_right (by omega) (by omega)
      have henqlen : enq.length ≤ B := by
        rw [henq, hB]
        calc ((childrenOf entries ref).filterMap _).length
            ≤ (childrenOf entries ref).length := List.length_filterMap_le _ _
          _ ≤ entries.length := List.length_filterMap_le _ _
      have hWenq : queueWeight rk (B + 1) M enq < (B + 1) ^ (M + 1 - rk ref) := by
        calc queueWeight rk (B + 1) M enq
            ≤ enq.length * (B + 1) ^ (M - rk ref) := queueWeight_le _ _ _ _ _ hitem
          _ ≤ B * (B + 1) ^ (M - rk ref) :=
              Nat.mul_le_mul_right _ henqlen
          _ < (B + 1) * (B + 1) ^ (M - rk ref) :=
              (Nat.mul_lt_mul_right hxpos).mpr (by omega)
          _ = (B + 1) ^ (M - rk ref + 1) := by rw [Nat.pow_succ, Nat.mul_comm]
          _ = (B + 1) ^ (M + 1 - rk ref) := by
              congr 1
              omega
      have hlt : queueWeight rk (B + 1) M (rest ++ enq) < w := by
        rw [← hw, queueWeight_cons, queueWeight_append]
        have : itemWeight rk (B + 1) M (ref, pref, name) =
            (B + 1) ^ (M + 1 - rk ref) := rfl
        omega
      obtain ⟨n, hn⟩ := ih _ hlt (rest ++ enq) compact' rfl henq_good
      exact ⟨n + 1, hn⟩

/-! ## Claim C2 -/

/-- C2, counterexample: the claim quantifies over every finite record
table, but the queue loop of `_build_dir_paths_compact` has no visited
set, so on the table `{5: (5, ".")}` — the root reference listed as its
own parent — the traversal re-enqueues the root forever: no amount of
fuel drains the queue. -/
theorem C2_counterexample :
    ¬ ∃ n, (buildDirPaths cycEntries n).isSome = true := by
  have haux : ∀ (n : Nat) (s : String) (c : List MftEntry),
      bfsAux cycEntries n [(5, 5, s)] c = none := by
    intro n
    induction n with
    | zero => intro s c; rfl
    | succ m ihm =>
      intro s c
      show bfsAux cycEntries m ([] ++ [(5, 5, ".")]) c = none
      exact ihm "." c
  rintro ⟨n, hn⟩
  unfold buildDirPaths ntfsRootRef at hn
  rw [haux n "" []] at hn
  simp at hn

/-- C2 (amended): Stage B terminates on every record table whose
parent-pointer graph is acyclic, witnessed by a rank function under which
every entry's parent ranks strictly below the entry (on real NTFS data the
tree depth provides such a rank): some finite fuel drains the whole
breadth-first queue started at the root reference 5. -/
theorem C2_amended (entries : List MftEntry) (rk : Nat → Nat)
    (hrk : ∀ e ∈ entries, rk e.2.1 < rk e.1) :
    ∃ n, (buildDirPaths entries n).isSome = true := by
  apply bfs_run entries rk hrk _ _ [] rfl
  intro it hit
  rcases List.mem_singleton.mp hit with rfl
  exact maxRank_root rk entries

theorem C2_amended_witness :
    (∀ e ∈ ([(6, 5, "a"), (7, 6, "b")] : List MftEntry), id e.2.1 < id e.1) ∧
    ∃ n, (buildDirPaths [(6, 5, "a"), (7, 6, "b")] n).isSome = true :=
  ⟨by decide, C2_amended [(6, 5, "a"), (7, 6, "b")] id (by decide)⟩

/-! ## Treemap lemmas -/

theorem placeH_pos {α : Type} (rowHeight ry : ℚ) (hrh : 0 < rowHeight) :
    ∀ (vals : List ℚ) (cx : ℚ), ∀ nd ∈ placeH (α := α) rowHeight ry vals cx,
      0 < nd.width ∧ 0 < nd.height := by
  intro vals
  induction vals with
  | nil => intro cx nd hnd; simp [placeH] at hnd
  | cons v vs ih =>
    intro cx nd hnd
    simp only [placeH] at hnd
    by_cases hw : v / rowHeight ≤ 0
    · rw [if_pos hw] at hnd
      exact ih cx nd hnd
    · rw [if_neg hw] at hnd
      rcases List.mem_cons.mp hnd with rfl | hmem
      · exact ⟨lt_of_not_le hw, hrh⟩
      · exact ih _ nd hmem

theorem placeV_pos {α : Type} (rowWidth rx : ℚ) (hrw : 0 < rowWidth) :
    ∀ (vals : List ℚ) (cy : ℚ), ∀ nd ∈ placeV (α := α) rowWidth rx vals cy,
      0 < nd.width ∧ 0 < nd.height := by
  intro vals
  induction vals with
  | nil => intro cy nd hnd; simp [placeV] at hnd
  | cons v vs ih =>
    intro cy nd hnd
    simp only [placeV] at hnd
    by_cases hh : v / rowWidth ≤ 0
    · rw [if_pos hh] at hnd
      exact ih cy nd hnd
    · rw [if_neg hh] at hnd
      rcases List.mem_cons.mp hnd with rfl | hmem
      · exact ⟨hrw, lt_of_not_le hh⟩
      · exact ih _ nd hmem

/-- Every node `layout_row` emits has positive width and height: the
guards return early otherwise. -/
theorem layout_row_pos {α : Type} (row : List ℚ) (rect : ℚ × ℚ × ℚ × ℚ)
    (isH : Bool) :
    ∀ nd ∈ (layout_row (α := α) row rect isH).1, 0 < nd.width ∧ 0 < nd.height := by
  obtain ⟨rx, ry, rw, rh⟩ := rect
  intro nd hnd
  simp only [layout_row] at hnd
  by_cases h1 : row.sum ≤ 0 ∨ rw ≤ 0 ∨ rh ≤ 0
  · rw [if_pos h1] at hnd
    simp at hnd
  · rw [if_neg h1] at hnd
    cases isH with
    | true =>
      simp only [if_pos rfl] at hnd
      by_cases h2 : row.sum / rw ≤ 0
      · rw [if_pos h2] at hnd
        simp at hnd
      · rw [if_neg h2] at hnd
        exact placeH_pos _ _ (lt_of_not_le h2) row rx nd hnd
    | false =>
      simp only [Bool.false_eq_true, if_false] at hnd
      by_cases h2 : row.sum / rh ≤ 0
      · rw [if_pos h2] at hnd
        simp at hnd
      · rw [if_neg h2] at hnd
        exact placeV_pos _ _ (lt_of_not_le h2) row ry nd hnd

/-- Every node the `_squarify` main loop emits has positive width and
height. -/
theorem squarifyLoop_pos {α : Type} (remaining row : List ℚ) (isH : Bool)
    (rect : ℚ × ℚ × ℚ × ℚ) :
    ∀ nd ∈ squarifyLoop (α := α) remaining row isH rect,
      0 < nd.width ∧ 0 < nd.height := by
  induction remaining, row, isH, rect using squarifyLoop.induct (α := α) with
  | case1 row isH rect =>
    intro nd hnd
    rw [squarifyLoop.eq_1] at hnd
    exact layout_row_pos row rect isH nd hnd
  | case2 v rest row isH rect rowA sideA hcond ih =>
    intro nd hnd
    rw [squarifyLoop.eq_2] at hnd
    have hcond' : row = [] ∨
        infLe (worstAspect (row ++ [v]) (if isH = true then rect.2.2.1 else rect.2.2.2))
          (worstAspect row (if isH = true then rect.2.2.1 else rect.2.2.2)) = true := hcond
    rw [if_pos hcond'] at hnd
    exact ih nd hnd
  | case3 v rest row isH rect rowA sideA hcond nodes hlay =>
    intro nd hnd
    rw [squarifyLoop.eq_2] at hnd
    have hcond' : ¬ (row = [] ∨
        infLe (worstAspect (row ++ [v]) (if isH = true then rect.2.2.1 else rect.2.2.2))
          (worstAspect row (if isH = true then rect.2.2.1 else rect.2.2.2)) = true) := hcond
    rw [if_neg hcond', hlay] at hnd
    have hp := layout_row_pos (α := α) row rect isH nd
    rw [hlay] at hp
    exact hp hnd
  | case4 v rest row isH rect rowA sideA hcond nodes newRect hlay ih =>
    intro nd hnd
    rw [squarifyLoop.eq_2] at hnd
    have hcond' : ¬ (row = [] ∨
        infLe (worstAspect (row ++ [v]) (if isH = true then rect.2.2.1 else rect.2.2.2))
          (worstAspect row (if isH = true then rect.2.2.1 else rect.2.2.2)) = true) := hcond
    rw [if_neg hcond', hlay] at hnd
    have hnd' : nd ∈ nodes ++ squarifyLoop (α := α) (v :: rest) [] (!isH) newRect := hnd
    have hp := layout_row_pos (α := α) row rect isH nd
    rw [hlay] at hp
    rcases List.mem_append.mp hnd' with hmem | hmem
    · exact hp hmem
    · exact ih nd hmem

theorem placeH_length {α : Type} (rowHeight ry : ℚ) (hrh : 0 < rowHeight)
    (vals : List ℚ) (hv : ∀ v ∈ vals, 0 < v) :
    ∀ cx, (placeH (α := α) rowHeight ry vals cx).length = vals.length := by
  induction vals with
  | nil => intro cx; rfl
  | cons v vs ih =>
    intro cx
    have hvpos : 0 < v / rowHeight :=
      div_pos (hv v (List.mem_cons_self _ _)) hrh
    simp only [placeH, if_neg (not_le.mpr hvpos), List.length_cons]
    rw [ih (fun x hx => hv x (List.mem_cons_of_mem _ hx))]

theorem placeV_length {α : Type} (rowWidth rx : ℚ) (hrw : 0 < rowWidth)
    (vals : List ℚ) (hv : ∀ v ∈ vals, 0 < v) :
    ∀ cy, (placeV (α := α) rowWidth rx vals cy).length = vals.length := by
  induction vals with
  | nil => intro cy; rfl
  | cons v vs ih =>
    intro cy
    have hvpos : 0 < v / rowWidth :=
      div_pos (hv v (List.mem_cons_self _ _)) hrw
    simp only [placeV, if_neg (not_le.mpr hvpos), List.length_cons]
    rw [ih (fun x hx => hv x (List.mem_cons_of_mem _ hx))]

/-- On a nonempty all-positive row inside a rectangle of positive sides,
a horizontal `layout_row` always succeeds: it places the whole row and
returns the shrunk remaining rectangle. -/
theorem layout_row_eqH {α : Type} (row : List ℚ) (rx ry rw rh : ℚ)
    (hrow : row ≠ []) (hpos : ∀ v ∈ row, 0 < v) (hrw : 0 < rw) (hrh : 0 < rh) :
    layout_row (α := α) row (rx, ry, rw, rh) true =
      (placeH (row.sum / rw) ry row rx,
        some (rx, ry + row.sum / rw, rw, rh - row.sum / rw)) := by
  have hsum : 0 < row.sum := List.sum_pos row hpos hrow
  have hguard : ¬ (row.sum ≤ 0 ∨ rw ≤ 0 ∨ rh ≤ 0) := by
    push_neg
    exact ⟨hsum, hrw, hrh⟩
  have hrh1 : 0 < row.sum / rw := div_pos hsum hrw
  simp only [layout_row, if_neg hguard, if_pos rfl, if_neg (not_le.mpr hrh1),
    if_true]

/-- Vertical counterpart of `layout_row_eqH`. -/
theorem layout_row_eqV {α : Type} (row : List ℚ) (rx ry rw rh : ℚ)
    (hrow : row ≠ []) (hpos : ∀ v ∈ row, 0 < v) (hrw : 0 < rw) (hrh : 0 < rh) :
    layout_row (α := α) row (rx, ry, rw, rh) false =
      (placeV (row.sum / rh) rx row ry,
        some (rx + row.sum / rh, ry, rw - row.sum / rh, rh)) := by
  have hsum : 0 < row.sum := List.sum_pos row hpos hrow
  have hguard : ¬ (row.sum ≤ 0 ∨ rw ≤ 0 ∨ rh ≤ 0) := by
    push_neg
    exact ⟨hsum, hrw, hrh⟩
  have hrw1 : 0 < row.sum / rh := div_pos hsum hrh
  simp only [layout_row, if_neg hguard, Bool.false_eq_true, if_false,
    if_neg (not_le.mpr hrw1)]

/-- When all sizes are positive and the rectangle's area equals the total
of the pending sizes, the `_squarify` loop lays out every value: one node
per element of `row` and `remaining`. -/
theorem squarifyLoop_length {α : Type} (remaining row : List ℚ) (isH : Bool)
    (rect : ℚ × ℚ × ℚ × ℚ) :
    (∀ v ∈ remaining, 0 < v) → (∀ v ∈ row, 0 < v) →
    0 < rect.2.2.1 → 0 < rect.2.2.2 →
    rect.2.2.1 * rect.2.2.2 = row.sum + remaining.sum →
    (squarifyLoop (α := α) remaining row isH rect).length =
      remaining.length + row.length := by
  induction remaining, row, isH, rect using squarifyLoop.induct (α := α) with
  | case1 row isH rect =>
    intro hrem hrow hw hh harea
    rw [squarifyLoop.eq_1]
    by_cases hR : row = []
    · subst hR
      obtain ⟨rx, ry, rw, rh⟩ := rect
      simp [layout_row]
    · obtain ⟨rx, ry, rw, rh⟩ := rect
      simp only [] at hw hh harea
      have hsum : 0 < row.sum := List.sum_pos row hrow hR
      cases isH with
      | true =>
        rw [layout_row_eqH row rx ry rw rh hR hrow hw hh]
        show (placeH (α := α) (row.sum / rw) ry row rx).length = [].length + row.length
        rw [placeH_length _ ry (div_pos hsum hw) row hrow rx]
        simp
      | false =>
        rw [layout_row_eqV row rx ry rw rh hR hrow hw hh]
        show (placeV (α := α) (row.sum / rh) rx row ry).length = [].length + row.length
        rw [placeV_length _ rx (div_pos hsum hh) row hrow ry]
        simp
  | case2 v rest row isH rect rowA sideA hcond ih =>
    intro hrem hrow hw hh harea
    have hcond2 : row = [] ∨
        infLe (worstAspect (row ++ [v]) (if isH = true then rect.2.2.1 else rect.2.2.2))
          (worstAspect row (if isH = true then rect.2.2.1 else rect.2.2.2)) = true := hcond
    rw [squarifyLoop.eq_2, if_pos hcond2]
    have hrow2 : ∀ x ∈ row ++ [v], 0 < x := by
      intro x hx
      rcases List.mem_append.mp hx with hx1 | hx1
      · exact hrow x hx1
      · rcases List.mem_singleton.mp hx1 with rfl
        exact hrem x (List.mem_cons_self _ _)
    have harea2 : rect.2.2.1 * rect.2.2.2 = (row ++ [v]).sum + rest.sum := by
      rw [List.sum_append, List.sum_singleton, harea, List.sum_cons]
      ring
    have hrem2 : ∀ x ∈ rest, 0 < x :=
      fun x hx => hrem x (List.mem_cons_of_mem _ hx)
    rw [ih hrem2 hrow2 hw hh harea2]
    show rest.length + (row ++ [v]).length = (v :: rest).length + row.length
    simp only [List.length_append, List.length_cons, List.length_singleton,
      List.length_nil]
    omega
  | case3 v rest row isH rect rowA sideA hcond nodes hlay =>
    intro hrem hrow hw hh harea
    exfalso
    have hR : row ≠ [] := fun hc => hcond (Or.inl hc)
    obtain ⟨rx, ry, rw, rh⟩ := rect
    simp only [] at hw hh
    cases isH with
    | true =>
      rw [layout_row_eqH row rx ry rw rh hR hrow hw hh] at hlay
      simp at hlay
    | false =>
      rw [layout_row_eqV row rx ry rw rh hR hrow hw hh] at hlay
      simp at hlay
  | case4 v rest row isH rect rowA sideA hcond nodes newRect hlay ih =>
    intro hrem hrow hw hh harea
    have hcond2 : ¬ (row = [] ∨
        infLe (worstAspect (row ++ [v]) (if isH = true then rect.2.2.1 else rect.2.2.2))
          (worstAspect row (if isH = true then rect.2.2.1 else rect.2.2.2)) = true) := hcond
    rw [squarifyLoop.eq_2, if_neg hcond2, hlay]
    have hR : row ≠ [] := fun hc => hcond (Or.inl hc)
    obtain ⟨rx, ry, rw, rh⟩ := rect
    simp only [] at hw hh harea
    have hsum : 0 < row.sum := List.sum_pos row hrow hR
    have hremsum : 0 < (v :: rest).sum := List.sum_pos _ hrem (by simp)
    cases isH with
    | true =>
      rw [layout_row_eqH row rx ry rw rh hR hrow hw hh] at hlay
      have h1 : placeH (α := α) (row.sum / rw) ry row rx = nodes :=
        congrArg Prod.fst hlay
      have h2 : ((rx, ry + row.sum / rw, rw, rh - row.sum / rw) : ℚ × ℚ × ℚ × ℚ) =
          newRect := by
        have h2a := congrArg Prod.snd hlay
        simpa using h2a
      obtain rfl := h2.symm
      have hcancel : rw * (row.sum / rw) = row.sum := by
        field_simp
      have harea3 : rw * (rh - row.sum / rw) = [].sum + (v :: rest).sum := by
        rw [mul_sub, hcancel, List.sum_nil]
        linarith
      have hpos2 : 0 < rh - row.sum / rw := by
        have hmul : 0 < rw * (rh - row.sum / rw) := by
          rw [harea3, List.sum_nil]
          linarith
        nlinarith
      have hlen2 := ih (fun x hx => hrem x hx) (fun x hx => by cases hx) hw hpos2 harea3
      rw [List.length_append, ← h1,
        placeH_length _ ry (div_pos hsum hw) row hrow rx, hlen2]
      simp only [List.length_cons, List.length_nil]
      omega
    | false =>
      rw [layout_row_eqV row rx ry rw rh hR hrow hw hh] at hlay
      have h1 : placeV (α := α) (row.sum / rh) rx row ry = nodes :=
        congrArg Prod.fst hlay
      have h2 : ((rx + row.sum / rh, ry, rw - row.sum / rh, rh) : ℚ × ℚ × ℚ × ℚ) =
          newRect := by
        have h2a := congrArg Prod.snd hlay
        simpa using h2a
      obtain rfl := h2.symm
      have hcancel : rh * (row.sum / rh) = row.sum := by
        field_simp
      have harea3 : (rw - row.sum / rh) * rh = [].sum + (v :: rest).sum := by
        rw [sub_mul, List.sum_nil]
        have : row.sum / rh * rh = row.sum := by
          field_simp
        rw [this]
        linarith
      have hpos2 : 0 < rw - row.sum / rh := by
        have hmul : 0 < (rw - row.sum / rh) * rh := by
          rw [harea3, List.sum_nil]
          linarith
        nlinarith
      have hlen2 := ih (fun x hx => hrem x hx) (fun x hx => by cases hx) hpos2 hh harea3
      rw [List.length_append, ← h1,
        placeV_length _ rx (div_pos hsum hh) row hrow ry, hlen2]
      simp only [List.length_cons, List.length_nil]
      omega

theorem sum_map_div_mul (l : List ℚ) (t w h : ℚ) :
    (l.map (fun s => s / t * w * h)).sum = l.sum / t * w * h := by
  induction l with
  | nil => simp
  | cons x xs ih =>
    simp [ih]
    ring

theorem zip_map_snd {A B C : Type} (g : B → C) :
    ∀ (ns : List A) (fs : List B), ns.length = fs.length →
    ((ns.zip fs).map (fun p => g p.2)) = fs.map g := by
  intro ns
  induction ns with
  | nil =>
    intro fs hlen
    cases fs with
    | nil => rfl
    | cons f fs' => simp at hlen
  | cons n ns' ih =>
    intro fs hlen
    cases fs with
    | nil => simp at hlen
    | cons f fs' =>
      simp only [List.zip_cons_cons, List.map_cons]
      rw [ih fs' (by simpa using hlen)]

/-- On a nonempty list of positive sizes inside a rectangle of positive
sides, `_squarify` emits exactly one node per size. -/
theorem squarify_length {α : Type} (sizes : List ℚ) (x y w h : ℚ)
    (hpos : ∀ v ∈ sizes, 0 < v) (hne : sizes ≠ []) (hw : 0 < w) (hh : 0 < h) :
    (squarify (α := α) sizes (x, y, w, h)).length = sizes.length := by
  have htot : 0 < sizes.sum := List.sum_pos sizes hpos hne
  simp only [squarify, if_neg hne, if_neg (not_le.mpr htot)]
  have hnorm_pos : ∀ v ∈ sizes.map (fun s => s / sizes.sum * w * h), 0 < v := by
    intro v hv
    obtain ⟨s, hs, rfl⟩ := List.mem_map.mp hv
    exact mul_pos (mul_pos (div_pos (hpos s hs) htot) hw) hh
  have harea : w * h =
      ([] : List ℚ).sum + (sizes.map (fun s => s / sizes.sum * w * h)).sum := by
    rw [List.sum_nil, sum_map_div_mul, div_self (ne_of_gt htot), one_mul, zero_add]
  rw [squarifyLoop_length _ _ _ _ hnorm_pos (by intro v hv; cases hv) hw hh harea]
  simp

/-! ## Claim C5 -/

/-- C5: `build_treemap` is a bijection on the filtered input: with a
positive target rectangle it returns exactly one node per input item of
positive size, and the i-th node carries the label, size and payload of
the i-th surviving item, in input order. -/
theorem C5_bijection {α : Type} (items : List (String × ℚ × α))
    (width height : Nat) (hw : 0 < width) (hh : 0 < height) :
    (build_treemap items width height).map (fun nd => (nd.label, nd.size, nd.data)) =
      (items.filter (fun it => decide (0 < it.2.1))).map
        (fun it => (it.1, it.2.1, some it.2.2)) := by
  simp only [build_treemap]
  by_cases hempty : items.isEmpty
  · rw [if_pos hempty]
    have hnil : items = [] := by
      cases items with
      | nil => rfl
      | cons a l => simp [List.isEmpty] at hempty
    subst hnil
    rfl
  · rw [if_neg hempty]
    by_cases hfe : (items.filter (fun it => decide (0 < it.2.1))).isEmpty
    · rw [if_pos hfe]
      have hnil : items.filter (fun it => decide (0 < it.2.1)) = [] := by
        cases hcc : items.filter (fun it => decide (0 < it.2.1)) with
        | nil => rfl
        | cons a l => rw [hcc] at hfe; simp [List.isEmpty] at hfe
      rw [hnil]
      rfl
    · rw [if_neg hfe]
      have hfne : items.filter (fun it => decide (0 < it.2.1)) ≠ [] := by
        intro hc
        rw [hc] at hfe
        simp [List.isEmpty] at hfe
      have hpos : ∀ it ∈ items.filter (fun it => decide (0 < it.2.1)), 0 < it.2.1 := by
        intro it hit
        have hm := List.mem_filter.mp hit
        simpa using hm.2
      have hszpos : ∀ v ∈ (items.filter (fun it => decide (0 < it.2.1))).map
          (fun it => it.2.1), 0 < v := by
        intro v hv
        obtain ⟨it, hit, rfl⟩ := List.mem_map.mp hv
        exact hpos it hit
      have hszne : (items.filter (fun it => decide (0 < it.2.1))).map
          (fun it => it.2.1) ≠ [] := by
        intro hc
        exact hfne (List.map_eq_nil_iff.mp hc)
      have hwQ : (0 : ℚ) < width := by exact_mod_cast hw
      have hhQ : (0 : ℚ) < height := by exact_mod_cast hh
      have hlen2 : (squarify (α := α)
          ((items.filter (fun it => decide (0 < it.2.1))).map (fun it => it.2.1))
          (0, 0, (width : ℚ), (height : ℚ))).length =
          (items.filter (fun it => decide (0 < it.2.1))).length := by
        rw [squarify_length _ 0 0 _ _ hszpos hszne hwQ hhQ, List.length_map]
      rw [List.map_map]
      exact zip_map_snd (fun it => (it.1, it.2.1, some it.2.2)) _ _ hlen2

theorem C5_bijection_witness :
    0 < 4 ∧ 0 < 3 ∧
    (build_treemap [("a", (3 : ℚ), (0 : Nat)), ("b", 0, 1), ("c", 2, 2)] 4 3).map
        (fun nd => (nd.label, nd.size, nd.data)) =
      (([("a", (3 : ℚ), (0 : Nat)), ("b", 0, 1), ("c", 2, 2)]).filter
          (fun it => decide (0 < it.2.1))).map
        (fun it => (it.1, it.2.1, some it.2.2)) :=
  ⟨by norm_num, by norm_num,
    C5_bijection [("a", (3 : ℚ), (0 : Nat)), ("b", 0, 1), ("c", 2, 2)] 4 3
      (by norm_num) (by norm_num)⟩

/-! ## Claim C9 -/

/-- C9: neither `_squarify` nor `build_treemap` ever emits a rectangle of
non-positive width or height — every output node satisfies
`0 < width` and `0 < height`, for every input list and target rectangle. -/
theorem C9_positive {α : Type} (sizes : List ℚ) (rect : ℚ × ℚ × ℚ × ℚ)
    (items : List (String × ℚ × α)) (width height : Nat) :
    (∀ nd ∈ squarify (α := α) sizes rect, 0 < nd.width ∧ 0 < nd.height) ∧
    (∀ nd ∈ build_treemap items width height, 0 < nd.width ∧ 0 < nd.height) := by
  have hsq : ∀ (szs : List ℚ) (rc : ℚ × ℚ × ℚ × ℚ),
      ∀ nd ∈ squarify (α := α) szs rc, 0 < nd.width ∧ 0 < nd.height := by
    intro szs rc nd hnd
    obtain ⟨x, y, w, h⟩ := rc
    simp only [squarify] at hnd
    by_cases h1 : szs = []
    · rw [if_pos h1] at hnd
      simp at hnd
    · rw [if_neg h1] at hnd
      by_cases h2 : szs.sum ≤ 0
      · rw [if_pos h2] at hnd
        simp at hnd
      · rw [if_neg h2] at hnd
        exact squarifyLoop_pos _ _ _ _ nd hnd
  refine ⟨hsq sizes rect, ?_⟩
  intro nd hnd
  simp only [build_treemap] at hnd
  by_cases hempty : items.isEmpty
  · rw [if_pos hempty] at hnd
    simp at hnd
  · rw [if_neg hempty] at hnd
    by_cases hfe : (items.filter (fun it => decide (0 < it.2.1))).isEmpty
    · rw [if_pos hfe] at hnd
      simp at hnd
    · rw [if_neg hfe] at hnd
      obtain ⟨p, hp, rfl⟩ := List.mem_map.mp hnd
      exact hsq _ _ p.1 (List.of_mem_zip hp).1

/-! ## Walker lemmas -/

theorem progressFrac_le (t s : Nat) : progressFrac t s ≤ 999 / 1000 := by
  unfold progressFrac
  split
  · exact min_le_left _ _
  · norm_num

theorem progressFrac_lt_one (t s : Nat) : progressFrac t s < 1 :=
  lt_of_le_of_lt (progressFrac_le t s) (by norm_num)

theorem progressFrac_total_zero (s : Nat) : progressFrac 0 s = 0 := by
  unfold progressFrac
  rw [if_neg]
  simp

/-- Every progress event the directory walk emits carries a ratio computed
by the guarded formula `progressFrac` at some intermediate byte count. -/
theorem walk_events (o : WalkOpts) (total : Nat) :
    ∀ (n : Nat) (es : FSList), sizeOf es ≤ n →
    (∀ (path : String) (depth : Nat) (oerr : Bool) (st : WalkCounts),
      ∀ ev ∈ (walkDir o total path depth oerr es st).2,
        ∃ s, ev.frac = progressFrac total s) ∧
    (∀ (path : String) (depth : Nat) (st : WalkCounts),
      ∀ ev ∈ (walkSubs o total path depth es st).2,
        ∃ s, ev.frac = progressFrac total s) := by
  intro n
  induction n with
  | zero =>
    intro es hes
    exfalso
    cases es with
    | nil =>
      rw [FSList.nil.sizeOf_spec] at hes
      omega
    | cons e rest =>
      rw [FSList.cons.sizeOf_spec] at hes
      omega
  | succ m ih =>
    intro es hes
    have hsubs : ∀ (path : String) (depth : Nat) (st : WalkCounts),
        ∀ ev ∈ (walkSubs o total path depth es st).2,
          ∃ s, ev.frac = progressFrac total s := by
      cases es with
      | nil =>
        intro path depth st ev hev
        rw [walkSubs.eq_1] at hev
        simp at hev
      | cons e rest =>
        have hrest : sizeOf rest ≤ m := by
          rw [FSList.cons.sizeOf_spec] at hes
          omega
        intro path depth st ev hev
        cases e with
        | file nm sz serr excl =>
          rw [walkSubs.eq_3 _ _ _ _ _ _ _ (by intro _ _ _ _ _ h; cases h)] at hev
          exact (ih rest hrest).2 path depth st ev hev
        | errEntry nm =>
          rw [walkSubs.eq_3 _ _ _ _ _ _ _ (by intro _ _ _ _ _ h; cases h)] at hev
          exact (ih rest hrest).2 path depth st ev hev
        | dir nm excl junc oerr children =>
          have hchild : sizeOf children ≤ m := by
            rw [FSList.cons.sizeOf_spec, FSEntry.dir.sizeOf_spec] at hes
            omega
          rw [walkSubs.eq_2] at hev
          by_cases hacc : acceptDir o.followSymlinks excl junc = true
          · rw [if_pos hacc] at hev
            rcases List.mem_append.mp hev with h1 | h1
            · exact (ih rest hrest).2 path depth st ev h1
            · exact (ih children hchild).1 (path ++ "\\" ++ nm) (depth + 1) oerr
                (walkSubs o total path depth rest st).1 ev h1
          · rw [if_neg hacc] at hev
            exact (ih rest hrest).2 path depth st ev hev
    refine ⟨?_, hsubs⟩
    intro path depth oerr st ev hev
    rw [walkDir.eq_1] at hev
    by_cases hd : depthExceeded o depth = true
    · rw [if_pos hd] at hev
      simp at hev
    · rw [if_neg hd] at hev
      by_cases ho : oerr = true
      · rw [if_pos ho] at hev
        simp at hev
      · rw [if_neg ho] at hev
        rcases List.mem_cons.mp hev with rfl | h1
        · exact ⟨(stAdd st (tallyEntries o.followSymlinks es)).scanned, rfl⟩
        · exact hsubs path depth _ ev h1

/-! ## Claim C6 -/

/-- C6: in the generic walker every event emitted after processing a
directory carries a ratio produced by the guarded formula
`scanned-bytes / capacity` clamped to at most `0.999`; the final event is
the only one whose ratio is exactly `1.0`, emitted once after the scan
completes. -/
theorem C6_progress_cap (o : WalkOpts) (du : Option (Nat × Nat × Nat))
    (rootPath : String) (rootOpenErr : Bool) (rootEntries : FSList) :
    (∀ ev ∈ (scanViaScandir o du rootPath rootOpenErr rootEntries).dropLast,
      ev.frac ≤ 999 / 1000 ∧ ∃ s, ev.frac = progressFrac (capacityOf du) s) ∧
    ((scanViaScandir o du rootPath rootOpenErr rootEntries).getLast?).map
        PEvent.frac = some 1 ∧
    (scanViaScandir o du rootPath rootOpenErr rootEntries).countP
        (fun ev => ev.frac == 1) = 1 := by
  have hmid := (walk_events o (capacityOf du) (sizeOf rootEntries) rootEntries
    (Nat.le_refl _)).1 rootPath 0 rootOpenErr ⟨0, 0, 0, 0⟩
  refine ⟨?_, ?_, ?_⟩
  · intro ev hev
    simp only [scanViaScandir] at hev
    rw [List.dropLast_concat] at hev
    obtain ⟨s, hs⟩ := hmid ev hev
    exact ⟨hs ▸ progressFrac_le _ _, s, hs⟩
  · simp only [scanViaScandir]
    rw [List.getLast?_concat]
    rfl
  · simp only [scanViaScandir]
    rw [List.countP_append]
    have hzero : (walkDir o (capacityOf du) rootPath 0 rootOpenErr rootEntries
        ⟨0, 0, 0, 0⟩).2.countP (fun ev => ev.frac == 1) = 0 := by
      rw [List.countP_eq_zero]
      intro ev hev
      obtain ⟨s, hs⟩ := hmid ev hev
      have hlt : ev.frac < 1 := hs ▸ progressFrac_lt_one _ _
      simp [beq_iff_eq]
      exact ne_of_lt hlt
    rw [hzero]
    rfl

/-! ## Claim C10 -/

/-- C10 (implicit): the per-directory ratio is totally guarded — it is the
quotient only when both the capacity and the scanned byte count are
positive, and exactly `0` otherwise; in particular, when the capacity
query failed (capacity recorded as zero) every intermediate progress
event of the walker carries ratio exactly `0`. -/
theorem C10_guarded_progress (o : WalkOpts) (rootPath : String)
    (rootOpenErr : Bool) (rootEntries : FSList) :
    (∀ t s : Nat, ¬ (0 < t ∧ 0 < s) → progressFrac t s = 0) ∧
    (∀ ev ∈ (scanViaScandir o none rootPath rootOpenErr rootEntries).dropLast,
      ev.frac = 0) := by
  constructor
  · intro t s hg
    unfold progressFrac
    rw [if_neg hg]
  · intro ev hev
    simp only [scanViaScandir] at hev
    rw [List.dropLast_concat] at hev
    obtain ⟨s, hs⟩ := (walk_events o (capacityOf none) (sizeOf rootEntries)
      rootEntries (Nat.le_refl _)).1 rootPath 0 rootOpenErr ⟨0, 0, 0, 0⟩ ev hev
    rw [hs]
    exact progressFrac_total_zero s

/-! ## Claim C7 -/

/-- C7: if the MFT availability check passes but the MFT backend raises,
`scan_path` swallows the exception and returns the Generic Walker's result
on the same options and the same (possibly partially mutated) shared
hierarchy object. -/
theorem C7_fallback {O R H E : Type} (canUse : O → Bool)
    (mft : O → H → Except E R × H) (scandir : O → H → R × H)
    (opts : O) (shared : H) (e : E) (h' : H)
    (hcan : canUse opts = true) (hraise : mft opts shared = (.error e, h')) :
    scan_path_model canUse mft scandir opts shared = scandir opts h' := by
  unfold scan_path_model
  rw [if_pos hcan, hraise]

theorem C7_fallback_witness :
    (fun _ : Nat => true) 2 = true ∧
    ((fun (_ : Nat) (h : Nat) => ((Except.error () : Except Unit Nat), h + 1)) 2 3 =
      ((Except.error ()), 4)) ∧
    scan_path_model (fun _ : Nat => true)
        (fun (_ : Nat) (h : Nat) => ((Except.error () : Except Unit Nat), h + 1))
        (fun (o h : Nat) => (o + h, h)) 2 3 =
      (fun (o h : Nat) => (o + h, h)) 2 4 :=
  ⟨rfl, rfl, C7_fallback _ _ _ 2 3 () 4 rfl rfl⟩

/-! ## Claim C8 -/

/-- C8, counterexample: the claim says the estimator reports a number
whenever the ratio is at least `0.05` and the oldest retained sample is at
least 10 seconds old. With `now = 20`, `ratio = 1/2` and the single
retained old sample `(5, 1/2)`, both conditions hold (age 15 ≥ 10), but
the code still reports "estimating" because the ratio increase over the
window is `0 ≤ 0.01`. -/
theorem C8_counterexample :
    (update_progress_eta [(5, 1/2)] 20 (1/2)).2 = EtaState.estimating ∧
    (5 / 100 : ℚ) ≤ 1 / 2 ∧
    ((update_progress_eta [(5, 1/2)] 20 (1/2)).1.headD (0, 0)).1 = 5 ∧
    (10 : ℚ) ≤ 20 - 5 :=
  ⟨by norm_num [update_progress_eta, prunedHistory, List.filter], by norm_num,
   by norm_num [update_progress_eta, prunedHistory, List.filter], by norm_num⟩

/-- C8 (amended): the estimator reports the explicit "estimating" state
until the ratio is at least `0.05`, the oldest sample retained in the
15-second window is at least 10 seconds old, *and* the ratio has grown by
more than `0.01` over the window; exactly when all three hold it reports
`max 0 ((1 − ratio) / speed)` with `speed = Δratio / Δtime` over the
window. (The code's additional `len(history) ≥ 2` test is subsumed: a
single retained sample is the one just appended, whose age is `0 < 10`.) -/
theorem C8_amended (history : List (ℚ × ℚ)) (now frac : ℚ) :
    (update_progress_eta history now frac).2 =
      if 5 / 100 ≤ frac ∧
          10 ≤ now - ((prunedHistory history now frac).headD (0, 0)).1 ∧
          1 / 100 < frac - ((prunedHistory history now frac).headD (0, 0)).2 then
        EtaState.numeric (max 0 ((1 - frac) /
          ((frac - ((prunedHistory history now frac).headD (0, 0)).2) /
           (now - ((prunedHistory history now frac).headD (0, 0)).1))))
      else EtaState.estimating := by
  show (if 2 ≤ (prunedHistory history now frac).length ∧ 5 / 100 ≤ frac then
      if 10 ≤ now - ((prunedHistory history now frac).headD (0, 0)).1 ∧
          1 / 100 < frac - ((prunedHistory history now frac).headD (0, 0)).2 then
        EtaState.numeric (max 0 ((1 - frac) /
          ((frac - ((prunedHistory history now frac).headD (0, 0)).2) /
           (now - ((prunedHistory history now frac).headD (0, 0)).1))))
      else EtaState.estimating
    else EtaState.estimating) = _
  have hfil : prunedHistory history now frac =
      history.filter (fun p => decide (now - 15 ≤ p.1)) ++ [(now, frac)] := by
    unfold prunedHistory
    rw [List.filter_append]
    congr 1
    simp
  rcases hcase : history.filter (fun p => decide (now - 15 ≤ p.1)) with _ | ⟨h0, t⟩
  · rw [hcase] at hfil
    simp only [List.nil_append] at hfil
    rw [hfil]
    have hL : ¬ (2 ≤ ([(now, frac)] : List (ℚ × ℚ)).length ∧ (5 : ℚ) / 100 ≤ frac) := by
      rintro ⟨h2, _⟩
      simp at h2
    have hR : ¬ ((5 : ℚ) / 100 ≤ frac ∧
        10 ≤ now - (([(now, frac)] : List (ℚ × ℚ)).headD (0, 0)).1 ∧
        1 / 100 < frac - (([(now, frac)] : List (ℚ × ℚ)).headD (0, 0)).2) := by
      rintro ⟨_, h10, _⟩
      simp at h10
      linarith
    rw [if_neg hL, if_neg hR]
  · rw [hcase] at hfil
    rw [hfil]
    have hlen : 2 ≤ ((h0 :: t) ++ [(now, frac)]).length := by
      simp
    have hhead : (((h0 :: t) ++ [(now, frac)]).headD (0, 0)) = h0 := rfl
    rw [hhead]
    by_cases hc1 : (5 : ℚ) / 100 ≤ frac
    · by_cases hc2 : 10 ≤ now - h0.1 ∧ (1 : ℚ) / 100 < frac - h0.2
      · rw [if_pos ⟨hlen, hc1⟩, if_pos hc2, if_pos ⟨hc1, hc2.1, hc2.2⟩]
      · rw [if_pos ⟨hlen, hc1⟩, if_neg hc2,
          if_neg (fun hall => hc2 ⟨hall.2.1, hall.2.2⟩)]
    · rw [if_neg (fun hall => hc1 hall.2), if_neg (fun hall => hc1 hall.1)]
